import Mathlib

/-!
# hvue: the option builder and the method bridge of `vm.go`

A shallow embedding of `src/vm.go` (package `hvue`): the functional options
`El`, `Data`, `DataS`, `MethodsOf`, the constructor `NewVM`, and the wrapper
closure that `MethodsOf` registers for every exported method.

Conventions of the embedding.

* A Go panic is an explicit outcome that carries the state reached when the
  panic was raised.
* JavaScript objects coming from the foreign runtime (`this`, the call
  arguments, the object returned by `new Vue`) are opaque handles.
* The `data` slot of the configuration is kept by value: an object together
  with the properties written on it through `Set`.
* `Wrapper.call` runs a wrapper up to its statement `m.Func.Call(goArgs)`
  and records the list handed to `Call`; `Wrapper.invoke` carries the call
  through the argument check of `reflect.Value.Call`, which belongs to the
  Go library and is written after the library: the method is invoked only
  when that check passes. The body of the bridged method lies outside
  `vm.go`.
-/

set_option autoImplicit false

namespace Hvue

/-! ## Values and types -/

/-- A `*js.Object` supplied by the foreign runtime, known only by identity. -/
abbrev JsObject := Nat

/-- A Go value passed as `interface{}` to `Data`, known only by identity. -/
abbrev GoValue := Nat

/-- The address of a Go struct, as passed (by pointer) to `DataS`. -/
abbrev Ptr := Nat

/-- The identity of a receiver allocated by `reflect.New`. -/
abbrev RecvId := Nat

/-- Go types as far as `vm.go` and the argument check of `reflect` tell
them apart: a parameter type is compared with `vmType`, and a parameter or
field type has to accept the value stored in it. For a type other than
`*VM`, `*js.Object` and a slice type, `acceptsVM` and `acceptsJs` record
whether a value of type `*VM`, of type `*js.Object`, is assignable to it (an
interface the pointer type implements, a defined type with that underlying
type). -/
inductive GoType where
  | vmPtr
  | jsObjectPtr
  | slice (elem : GoType)
  | named (name : String) (acceptsVM acceptsJs : Bool)
  deriving DecidableEq, Repr

/-- Whether `reflect` lets a value of type `*VM` be assigned to the type. -/
def GoType.assignableVM : GoType → Bool
  | GoType.vmPtr => true
  | GoType.named _ b _ => b
  | _ => false

/-- Whether `reflect` lets a value of type `*js.Object` be assigned to the
type. -/
def GoType.assignableJs : GoType → Bool
  | GoType.jsObjectPtr => true
  | GoType.named _ _ b => b
  | _ => false

/-- The Go call `Elem()` on a slice type. -/
def GoType.elem? : GoType → Option GoType
  | GoType.slice e => some e
  | _ => none

/-- The Go declaration `var vmType = reflect.TypeOf(&VM{})`. -/
def vmType : GoType := GoType.vmPtr

/-- The Go declaration `type VM struct { *js.Object }`. -/
structure VM where
  Object : JsObject
  deriving DecidableEq, Repr

/-- A `reflect.Method`: its name, whether that name is exported, the types
of the parameters that follow the receiver, so that `In(0)` is the receiver
and `In(k+1)` is `params[k]`, and whether the function is variadic (its last
parameter is then declared `...T` and has the slice type `[]T`). -/
structure Method where
  Name : String
  exported : Bool
  params : List GoType
  variadic : Bool
  deriving DecidableEq, Repr

/-- The Go call `m.Type.NumIn()`: the receiver counts as the first input. -/
def Method.NumIn (m : Method) : Nat := m.params.length + 1

/-- The Go call `m.Type.In(i)` for `i ≥ 1`; the receiver type `In(0)` is
never consulted by `vm.go` and is not represented. -/
def Method.In (m : Method) (i : Nat) : Option GoType :=
  match i with
  | 0 => none
  | k + 1 => m.params.get? k

/-- The kinds of `reflect.Type` that `MethodsOf` distinguishes. -/
inductive Kind where
  | Ptr
  | Struct
  | Other
  deriving DecidableEq, Repr

/-- The `reflect.Type` of the value given to `MethodsOf`: its kind and its
method set in the order of reflection. Following the doc comment of
`MethodsOf`, a pointer type points to a pure JavaScript object struct, whose
field 0 is the embedded `*js.Object`. -/
structure RType where
  Kind : Kind
  methods : List Method
  deriving DecidableEq, Repr

/-- The methods `typ.Method(0)`, ..., `typ.Method(typ.NumMethod()-1)`:
reflection on a non-interface type enumerates the exported methods only. -/
def RType.reflectMethods (typ : RType) : List Method :=
  typ.methods.filter (fun m => m.exported)

/-- A `reflect.Value` as it occurs in the argument list of a wrapper. -/
inductive RValue where
  | zero
  | receiver (r : RecvId)
  | vm (v : VM)
  | js (o : JsObject)
  deriving DecidableEq, Repr

/-! ## The configuration record -/

/-- A write into a table of named properties: property names are unique,
a later write to a name replaces the earlier value. This is the Go method
`Set` at every name other than `__proto__`; the method table only ever
receives the names of exported Go methods. -/
def setProp {α : Type} (ps : List (String × α)) (k : String) (v : α) :
    List (String × α) :=
  match ps with
  | [] => [(k, v)]
  | (k1, v1) :: rest =>
    if k1 = k then (k, v) :: rest else (k1, v1) :: setProp rest k v

/-- The Go method `Set` on an ordinary JavaScript object, as made by
`NewObject()`: a write to a name creates or replaces the own property of
that name, except that `__proto__` is the prototype accessor, so that a
write to it creates no own property. -/
def jsSet {α : Type} (ps : List (String × α)) (k : String) (v : α) :
    List (String × α) :=
  if k = "__proto__" then ps else setProp ps k v

/-- The property of a JavaScript object under a name, if it has one. -/
def getProp {α : Type} (ps : List (String × α)) (k : String) : Option α :=
  match ps with
  | [] => none
  | (k1, v1) :: rest => if k1 = k then some v1 else getProp rest k

/-- The contents of the `data` slot: `js.Undefined`, an object made by
`NewObject()` with the properties set on it, or the struct pointer given to
`DataS` with the properties set on it afterwards through `c.Data.Set`. -/
inductive JsData where
  | undefined
  | object (props : List (String × GoValue))
  | struct (p : Ptr) (props : List (String × GoValue))
  deriving DecidableEq, Repr

/-- The closure built by `js.MakeFunc` in `MethodsOf`: it captures the
shared receiver and the method `m` (and the configuration `c`, which is the
configuration of the state it is run in). -/
structure Wrapper where
  receiver : RecvId
  m : Method
  deriving DecidableEq, Repr

/-- Modelled from the spec: the Configuration Record (type `Config` is
declared outside `vm.go`), with its mount-selector, data-payload and
method-table slots, and the handle `dataValue` kept for the back-reference.
`Methods = none` is `js.Undefined`; `dataValue = none` is the zero
`reflect.Value`. The slot `Data` is the `data` property of the underlying
object, so `c.Object.Set("data", v)` and `c.Data` are the same slot. -/
structure Config where
  El : Option String
  Data : JsData
  Methods : Option (List (String × Wrapper))
  dataValue : Option Ptr
  deriving DecidableEq, Repr

/-- The configuration together with the receivers allocated so far: field 0
of each receiver (`none` is the nil of a fresh receiver). -/
structure State where
  c : Config
  receivers : RecvId → Option JsData
  nextReceiver : RecvId

/-- The outcome of running an option: normal completion, or a panic with
its message and the state at the panic. -/
inductive Result where
  | ok (s : State)
  | panic (msg : String) (s : State)

/-- The Go type `option`, a function on `*Config`. -/
abbrev option := State → Result

/-- The Go literal `&Config{Object: NewObject()}`: every slot is unset. -/
def Config.empty : Config :=
  { El := none, Data := JsData.undefined, Methods := none, dataValue := none }

/-- The state at the start of `NewVM`: a fresh configuration, no receiver. -/
def State.init : State :=
  { c := Config.empty, receivers := fun _ => none, nextReceiver := 0 }

/-! ## The options -/

/-- The Go function `El`: sets the `el` slot. -/
def El (selector : String) : option := fun s =>
  Result.ok { s with c := { s.c with El := some selector } }

/-- The Go function `Data`: creates the data object when the slot is
undefined, then sets one property on whatever the slot holds. On a `DataS`
payload the write is only recorded beside the pointer: what it does to the
struct behind the pointer, and whether it can fail, is decided by the way
the payload is externalised, outside `vm.go`; no statement below about
struct fields covers a `Data` call after a `DataS` call. -/
def Data (name : String) (value : GoValue) : option := fun s =>
  let d : JsData :=
    match s.c.Data with
    | JsData.undefined => JsData.object (jsSet [] name value)
    | JsData.object props => JsData.object (jsSet props name value)
    | JsData.struct p props => JsData.struct p (jsSet props name value)
  Result.ok { s with c := { s.c with Data := d } }

/-- The Go function `DataS`: panics when the data slot is already defined,
otherwise stores the struct pointer in the `data` slot and records the
pointed-to struct in `dataValue`. Following its doc comment, `value` is a
pointer to a struct. -/
def DataS (value : Ptr) : option := fun s =>
  if s.c.Data ≠ JsData.undefined then
    Result.panic "Cannot use hvue.Data and hvue.DataS together" s
  else
    Result.ok { s with c := { s.c with Data := JsData.struct value [],
                                        dataValue := some value } }

/-- The statement `c.Methods.Set(m.Name, js.MakeFunc(...))`. -/
def State.setMethod (s : State) (name : String) (w : Wrapper) : State :=
  { s with c := { s.c with Methods := some (setProp (s.c.Methods.getD []) name w) } }

/-- The Go function `MethodsOf`, given `typ = reflect.TypeOf(t)`: creates
the method table when it is undefined, panics unless `typ` is a pointer
type, allocates one receiver, and registers one wrapper per reflected
method under the name of the method. -/
def MethodsOf (typ : RType) : option := fun s =>
  let s1 : State :=
    if s.c.Methods = none then { s with c := { s.c with Methods := some [] } } else s
  if typ.Kind ≠ Kind.Ptr then
    Result.panic "Item passed to MethodsOf must be a pointer" s1
  else
    let receiver : RecvId := s1.nextReceiver
    let s2 : State :=
      { s1 with receivers := Function.update s1.receivers receiver none,
                nextReceiver := receiver + 1 }
    Result.ok (typ.reflectMethods.foldl
      (fun st m => st.setMethod m.Name { receiver := receiver, m := m }) s2)

/-! ## The wrapper closure -/

/-- The outcome of one invocation of a wrapper, up to its call of the
bridged method: the run-time panic of an out-of-range slice index, or the
statement `m.Func.Call(goArgs)` reached with this `goArgs`. -/
inductive CallOutcome where
  | indexOutOfRange
  | called (m : Method) (goArgs : List RValue)
  deriving DecidableEq, Repr

/-- The Go assignment `xs[i] = v` on a slice: fails outside `0..len-1`. -/
def assignIndex {α : Type} (xs : List α) (i : Nat) (v : α) : Option (List α) :=
  if i < xs.length then some (xs.set i v) else none

/-- The loop `for j := 0; j < len(jsArgs); i, j = i+1, j+1` with body
`goArgs[i] = reflect.ValueOf(jsArgs[j])`, from the current `i` and the
arguments not yet copied. -/
def copyArgs (goArgs : List RValue) (i : Nat) : List JsObject → Option (List RValue)
  | [] => some goArgs
  | a :: rest =>
    match assignIndex goArgs i (RValue.js a) with
    | none => none
    | some g => copyArgs g (i + 1) rest

/-- The test `m.Type.NumIn() > 1 && m.Type.In(1) == vmType`. -/
def Method.wantsVM (m : Method) : Bool :=
  decide (m.NumIn > 1) && decide (m.In 1 = some vmType)

/-- The body of the closure registered by `MethodsOf`, run in state `s` with
the call-time `this` and `jsArgs`: rebinds field 0 of the shared receiver to
`c.Data`, builds `goArgs` and calls the method. -/
def Wrapper.call (w : Wrapper) (s : State) (this : JsObject) (jsArgs : List JsObject) :
    State × CallOutcome :=
  let s1 : State := { s with receivers := Function.update s.receivers w.receiver (some s.c.Data) }
  let goArgs : List RValue := List.replicate w.m.NumIn RValue.zero
  match assignIndex goArgs 0 (RValue.receiver w.receiver) with
  | none => (s1, CallOutcome.indexOutOfRange)
  | some g0 =>
    let gi : Option (List RValue × Nat) :=
      if w.m.wantsVM then
        (assignIndex g0 1 (RValue.vm { Object := this })).map (fun g => (g, 2))
      else some (g0, 1)
    match gi with
    | none => (s1, CallOutcome.indexOutOfRange)
    | some (g1, i) =>
      match copyArgs g1 i jsArgs with
      | none => (s1, CallOutcome.indexOutOfRange)
      | some g => (s1, CallOutcome.called w.m g)

/-- The number of foreign arguments a method takes: its inputs without the
receiver and without a leading `*VM` parameter. -/
def Method.declared (m : Method) : Nat :=
  m.NumIn - 1 - (if m.wantsVM then 1 else 0)

/-- The leading part of the argument list: the receiver, then the VM
wrapping the call-time handle when the method asks for it. -/
def leadArgs (w : Wrapper) (this : JsObject) : List RValue :=
  RValue.receiver w.receiver ::
    (if w.m.wantsVM then [RValue.vm { Object := this }] else [])

/-! ## The call through `reflect` -/

/-- The panics raised by the argument check of `reflect.Value.Call`. -/
inductive ReflectPanic where
  | tooFew
  | tooMany
  | zeroValue
  | notAssignable
  | variadicNotAssignable
  deriving DecidableEq, Repr

/-- The test `x.Type().AssignableTo(t)` for a value of an argument list and
a parameter type: a `*VM` or a `*js.Object` against the type. The receiver
is only ever stored at index 0, whose type `In(0)` is its own type. -/
def RValue.assignableTo : RValue → GoType → Bool
  | RValue.vm _, t => t.assignableVM
  | RValue.js _, t => t.assignableJs
  | _, _ => false

/-- The input types `In(0)`, `In(1)`, ...; `none` stands for the receiver
type `In(0)`. -/
def Method.ins (m : Method) : List (Option GoType) :=
  none :: m.params.map some

/-- The test `in[i].Type().AssignableTo(t.In(i))` at one position. -/
def slotFits : Option GoType → RValue → Bool
  | none, RValue.receiver _ => true
  | none, _ => false
  | some t, v => v.assignableTo t

/-- The loop `for i := 0; i < n; i++` of `Call` over the first `n` input
types and the first `n` arguments: every argument fits its position. -/
def allFit : List (Option GoType) → List RValue → Bool
  | t :: ts, v :: vs => slotFits t v && allFit ts vs
  | _, _ => true

/-- The loop of `Call` over the arguments of a variadic function from index
`n` on: each is assignable to `t.In(n).Elem()`. -/
def variadicFit (m : Method) (n : Nat) (args : List RValue) : Bool :=
  match m.ins.get? n with
  | some (some t) =>
    match t.elem? with
    | some e => (args.drop n).all (fun v => v.assignableTo e)
    | none => false
  | _ => false

/-- The argument check of the Go library function `reflect.Value.Call` for
the function of method `m`, in the order of the library: the count against
`NumIn` (one less for a variadic function), then the zero `Value`, then the
assignability of the first `n` arguments, then of the variadic rest. When
every check passes the function is called with these arguments, those from
index `n` on gathered into the variadic slice. -/
def reflectCall (m : Method) (args : List RValue) : Except ReflectPanic (List RValue) :=
  let n : Nat := if m.variadic then m.NumIn - 1 else m.NumIn
  if args.length < n then Except.error ReflectPanic.tooFew
  else if m.variadic = false ∧ n < args.length then Except.error ReflectPanic.tooMany
  else if RValue.zero ∈ args then Except.error ReflectPanic.zeroValue
  else if allFit (m.ins.take n) (args.take n) = false then
    Except.error ReflectPanic.notAssignable
  else if m.variadic = true ∧ variadicFit m n args = false then
    Except.error ReflectPanic.variadicNotAssignable
  else Except.ok args

/-- How one invocation of a wrapper ends: in the out-of-range panic of the
wrapper, in a panic of the argument check of `reflect`, or with the body of
the method run on an argument list. -/
inductive Invocation where
  | indexOutOfRange
  | reflectPanic (e : ReflectPanic)
  | invoked (m : Method) (args : List RValue)
  deriving DecidableEq, Repr

/-- One invocation of a wrapper carried through `m.Func.Call(goArgs)`. -/
def Wrapper.invoke (w : Wrapper) (s : State) (this : JsObject) (jsArgs : List JsObject) :
    Invocation :=
  match (w.call s this jsArgs).2 with
  | CallOutcome.indexOutOfRange => Invocation.indexOutOfRange
  | CallOutcome.called m goArgs =>
    match reflectCall m goArgs with
    | Except.error e => Invocation.reflectPanic e
    | Except.ok args => Invocation.invoked m args

/-! ## NewVM -/

/-- Modelled from the spec: the method `Option` of `Config` (declared
outside `vm.go`) applies each option in the given order; a panic of an
option ends the run. -/
def Config.Option (s : State) : List option → Result
  | [] => Result.ok s
  | o :: rest =>
    match o s with
    | Result.ok s1 => Config.Option s1 rest
    | Result.panic msg s1 => Result.panic msg s1

/-- The value a struct field holds: the zero value, a `*VM`, or any other
Go value. -/
inductive FieldVal where
  | zero
  | vm (v : VM)
  | val (v : GoValue)
  deriving DecidableEq, Repr

/-- A field of a Go struct: name, declared type, current value. -/
structure Field where
  name : String
  type : GoType
  value : FieldVal
  deriving DecidableEq, Repr

/-- The Go structs reachable through the pointers given to `DataS`. -/
abbrev Heap := Ptr → List Field

/-- The Go call `FieldByName(name)`: the field of that name, if any. -/
def FieldByName (fs : List Field) (name : String) : Option Field :=
  fs.find? (fun f => decide (f.name = name))

/-- The Go call `vmField.Set(v)` on the field of that name, for a value the
field type accepts. -/
def setField (fs : List Field) (name : String) (v : FieldVal) : List Field :=
  match fs with
  | [] => []
  | f :: rest =>
    if f.name = name then { f with value := v } :: rest else f :: setField rest name v

/-- What one run of `NewVM` does: its result (the VM returned, or the
message of the panic), the final configuration state, the records handed to
the foreign constructor, the Go heap afterwards and the field assignments
made through `reflect`. -/
structure Build where
  result : Except String VM
  state : State
  handed : List Config
  heap : Heap
  writes : List (Ptr × String)

/-- The calls of the options of `vm.go`, as written at a call of `NewVM`. -/
inductive OptionCall where
  | el (selector : String)
  | data (name : String) (value : GoValue)
  | dataS (value : Ptr)
  | methodsOf (typ : RType)
  deriving DecidableEq, Repr

/-- The option a call evaluates to. -/
def OptionCall.toOption : OptionCall → option
  | OptionCall.el sel => El sel
  | OptionCall.data n v => Data n v
  | OptionCall.dataS p => DataS p
  | OptionCall.methodsOf t => MethodsOf t

/-- The Go function `NewVM`, with the foreign constructor
`js.Global.Get("Vue").New` as the parameter `vueNew` and the Go heap it
starts from: applies the options, hands the record to the constructor, and
sets the field `VM` of the `DataS` struct, when there is one, to the new VM;
`Set` panics when the type of the field does not accept a `*VM`. -/
def NewVM (vueNew : Config → JsObject) (heap : Heap) (opts : List option) : Build :=
  match Config.Option State.init opts with
  | Result.panic msg s =>
    { result := Except.error msg, state := s, handed := [], heap := heap, writes := [] }
  | Result.ok s =>
    let vm : VM := { Object := vueNew s.c }
    match s.c.dataValue with
    | none =>
      { result := Except.ok vm, state := s, handed := [s.c], heap := heap, writes := [] }
    | some p =>
      match FieldByName (heap p) "VM" with
      | none =>
        { result := Except.ok vm, state := s, handed := [s.c], heap := heap, writes := [] }
      | some f =>
        if f.type.assignableVM then
          { result := Except.ok vm, state := s, handed := [s.c],
            heap := Function.update heap p (setField (heap p) "VM" (FieldVal.vm vm)),
            writes := [(p, "VM")] }
        else
          { result := Except.error "reflect.Set: value of type *hvue.VM is not assignable",
            state := s, handed := [s.c], heap := heap, writes := [] }

/-- Whether a call is a `Data` call. -/
def OptionCall.isData : OptionCall → Bool
  | OptionCall.data _ _ => true
  | _ => false

/-- Whether a call is a `DataS` call. -/
def OptionCall.isDataS : OptionCall → Bool
  | OptionCall.dataS _ => true
  | _ => false

/-- Whether a call is `MethodsOf` on a value that is not a pointer. -/
def OptionCall.badBridge : OptionCall → Bool
  | OptionCall.methodsOf t => decide (t.Kind ≠ Kind.Ptr)
  | _ => false

/-- The entries of the method table; an unset table has none. -/
def State.entries (s : State) : List (String × Wrapper) := s.c.Methods.getD []

/-- The table obtained by registering the wrappers of `ms`, in order, all
with the receiver `r`. -/
def registerAll (r : RecvId) (ms : List Method) (t : List (String × Wrapper)) :
    List (String × Wrapper) :=
  ms.foldl (fun t m => setProp t m.Name { receiver := r, m := m }) t

/-- The pointers of the `DataS` calls among the options, in order. -/
def dataSOf : List OptionCall → List Ptr
  | [] => []
  | OptionCall.dataS p :: rest => p :: dataSOf rest
  | _ :: rest => dataSOf rest

/-- The run of the options of a call of `NewVM` from a given state. -/
def runCalls (s : State) (opts : List OptionCall) : Result :=
  Config.Option s (opts.map OptionCall.toOption)

/-- The run of `NewVM` on the options written as calls. -/
def buildOf (vueNew : Config → JsObject) (heap : Heap) (opts : List OptionCall) : Build :=
  NewVM vueNew heap (opts.map OptionCall.toOption)

/-! ## Concrete inputs used in the examples -/

/-- A method `M(a, b)` with two parameters after the receiver. -/
def exTwo : Method :=
  { Name := "M", exported := true, params := [GoType.jsObjectPtr, GoType.jsObjectPtr],
    variadic := false }

/-- A method `V(vm *VM, a, b)`. -/
def exVM : Method :=
  { Name := "V", exported := true, params := [GoType.vmPtr, GoType.jsObjectPtr, GoType.jsObjectPtr],
    variadic := false }

/-- A method `One(a)`. -/
def exOne : Method :=
  { Name := "One", exported := true, params := [GoType.jsObjectPtr], variadic := false }

/-- An unexported method `hidden()`. -/
def exHidden : Method :=
  { Name := "hidden", exported := false, params := [], variadic := false }

/-- A pointer type with the four example methods. -/
def exPtrType : RType := { Kind := Kind.Ptr, methods := [exTwo, exOne, exVM, exHidden] }

/-- A struct type passed by value. -/
def exStructType : RType := { Kind := Kind.Struct, methods := [exTwo] }

/-- A heap in which struct 1 has a field `VM` of type `*VM` and a field `N`,
and every other struct has only the field `N`. -/
def exHeap : Heap := fun p =>
  if p = 1 then
    [{ name := "N", type := GoType.named "int" false false, value := FieldVal.val 5 },
     { name := "VM", type := vmType, value := FieldVal.zero }]
  else [{ name := "N", type := GoType.named "int" false false, value := FieldVal.val 5 }]

/-- A foreign constructor that returns the handle 42. -/
def exVue : Config → JsObject := fun _ => 42

/-! ## The argument list built by a wrapper -/

theorem assignIndex_lt {α : Type} (xs : List α) (i : Nat) (v : α) (h : i < xs.length) :
    assignIndex xs i v = some (xs.set i v) := by
  simp [assignIndex, h]

theorem assignIndex_ge {α : Type} (xs : List α) (i : Nat) (v : α) (h : xs.length ≤ i) :
    assignIndex xs i v = none := by
  simp [assignIndex, Nat.not_lt.mpr h]

/-- The copy loop succeeds when the remaining arguments fit into the slice,
and then overwrites exactly the positions `i .. i + len - 1`. -/
theorem copyArgs_fits (args : List JsObject) : ∀ (g : List RValue) (i : Nat),
    i + args.length ≤ g.length →
    copyArgs g i args
      = some (g.take i ++ args.map RValue.js ++ g.drop (i + args.length)) := by
  induction args with
  | nil => intro g i _; simp [copyArgs]
  | cons a rest ih =>
    intro g i h
    simp only [List.length_cons] at h
    have hi : i < g.length := by omega
    have hlen : i + 1 + rest.length ≤ (g.set i (RValue.js a)).length := by
      simp only [List.length_set]; omega
    simp only [copyArgs, assignIndex_lt g i _ hi]
    rw [ih (g.set i (RValue.js a)) (i + 1) hlen]
    have hset := List.set_eq_take_cons_drop (RValue.js a) hi
    have h1 : (g.set i (RValue.js a)).take (i + 1) = g.take i ++ [RValue.js a] := by
      rw [hset, List.take_append_eq_append_take]
      simp [List.length_take, Nat.min_eq_left (Nat.le_of_lt hi)]
    have h2 : (g.set i (RValue.js a)).drop (i + 1 + rest.length) = g.drop (i + (rest.length + 1)) := by
      rw [List.drop_set_of_lt _ _ (by omega)]
      congr 1; omega
    rw [h1, h2]
    simp

/-- The copy loop runs off the end of the slice when the remaining arguments
do not fit. -/
theorem copyArgs_overflow (args : List JsObject) : ∀ (g : List RValue) (i : Nat),
    i ≤ g.length → g.length < i + args.length → copyArgs g i args = none := by
  induction args with
  | nil => intro g i h1 h2; simp only [List.length_nil] at h2; omega
  | cons a rest ih =>
    intro g i h1 h2
    simp only [List.length_cons] at h2
    by_cases hi : i < g.length
    · simp only [copyArgs, assignIndex_lt g i _ hi]
      exact ih _ _ (by simp only [List.length_set]; omega)
        (by simp only [List.length_set]; omega)
    · simp only [copyArgs, assignIndex_ge g i _ (by omega)]

theorem leadArgs_length (w : Wrapper) (this : JsObject) :
    (leadArgs w this).length = if w.m.wantsVM then 2 else 1 := by
  unfold leadArgs; split <;> simp

theorem numIn_eq (m : Method) :
    m.NumIn = (if m.wantsVM then 2 else 1) + m.declared := by
  unfold Method.declared
  by_cases h : m.wantsVM = true
  · have : m.NumIn > 1 := by
      unfold Method.wantsVM at h
      simp only [Bool.and_eq_true, decide_eq_true_eq] at h
      exact h.1
    simp only [if_pos h]; omega
  · simp only [if_neg h]; unfold Method.NumIn; omega

/-- A wrapper first rebinds field 0 of its receiver to the current data
slot, then lays out the receiver and the optional VM, and runs the copy loop
on a slice of `NumIn` entries. -/
theorem call_eq (w : Wrapper) (s : State) (this : JsObject) (jsArgs : List JsObject) :
    w.call s this jsArgs =
      ({ s with receivers := Function.update s.receivers w.receiver (some s.c.Data) },
        match copyArgs (leadArgs w this ++ List.replicate w.m.declared RValue.zero)
            (leadArgs w this).length jsArgs with
        | none => CallOutcome.indexOutOfRange
        | some g => CallOutcome.called w.m g) := by
  by_cases h : w.m.wantsVM = true
  · have hn : w.m.NumIn = w.m.declared + 1 + 1 := by rw [numIn_eq, if_pos h]; omega
    have h0 : List.replicate w.m.NumIn RValue.zero
        = RValue.zero :: RValue.zero :: List.replicate w.m.declared RValue.zero := by
      rw [hn, List.replicate_succ, List.replicate_succ]
    simp only [Wrapper.call, leadArgs, h, if_true, h0, assignIndex, List.length_cons,
      List.set_cons_zero, List.set_cons_succ, Nat.zero_lt_succ, Nat.succ_lt_succ_iff,
      Option.map_some', List.cons_append, List.nil_append, List.length_nil]
    cases copyArgs _ _ jsArgs <;> rfl
  · have hn : w.m.NumIn = w.m.declared + 1 := by rw [numIn_eq, if_neg h]; omega
    have h0 : List.replicate w.m.NumIn RValue.zero
        = RValue.zero :: List.replicate w.m.declared RValue.zero := by
      rw [hn, List.replicate_succ]
    have hf : w.m.wantsVM = false := by simpa using h
    simp only [Wrapper.call, leadArgs, hf, h0, assignIndex, List.length_cons,
      List.set_cons_zero, Nat.zero_lt_succ, if_true, List.cons_append, List.nil_append,
      List.length_nil, Bool.false_eq_true, if_false]
    cases copyArgs _ _ jsArgs <;> rfl

/-- The outcome of a wrapper in terms of the number of foreign arguments:
up to the declared number the list is filled from the left and the missing
positions keep the zero `reflect.Value`; beyond it the copy loop fails. -/
theorem call_outcome (w : Wrapper) (s : State) (this : JsObject) (jsArgs : List JsObject) :
    (w.call s this jsArgs).2 =
      if jsArgs.length ≤ w.m.declared then
        CallOutcome.called w.m (leadArgs w this ++ jsArgs.map RValue.js
          ++ List.replicate (w.m.declared - jsArgs.length) RValue.zero)
      else CallOutcome.indexOutOfRange := by
  rw [call_eq]
  by_cases h : jsArgs.length ≤ w.m.declared
  · rw [if_pos h, copyArgs_fits jsArgs _ _ (by simp only [List.length_append, List.length_replicate]; omega)]
    simp only [List.take_left', List.drop_append, List.drop_replicate]
  · rw [if_neg h, copyArgs_overflow jsArgs _ _ (by simp)
      (by simp only [List.length_append, List.length_replicate]; omega)]

/-! ## Property tables -/

theorem getProp_setProp {α : Type} (ps : List (String × α)) (k n : String) (v : α) :
    getProp (setProp ps k v) n = if k = n then some v else getProp ps n := by
  induction ps with
  | nil => simp [setProp, getProp]
  | cons e rest ih =>
    obtain ⟨k1, v1⟩ := e
    by_cases h1 : k1 = k
    · subst h1
      by_cases h2 : k1 = n <;> simp [setProp, getProp, h2]
    · by_cases h2 : k1 = n
      · subst h2
        have : ¬ k = k1 := fun h => h1 h.symm
        simp [setProp, getProp, h1, this]
      · simp [setProp, getProp, h1, h2, ih]

theorem keys_setProp {α : Type} (ps : List (String × α)) (k n : String) (v : α) :
    n ∈ (setProp ps k v).map Prod.fst ↔ n = k ∨ n ∈ ps.map Prod.fst := by
  induction ps with
  | nil => simp [setProp]
  | cons e rest ih =>
    obtain ⟨k1, v1⟩ := e
    by_cases h1 : k1 = k
    · subst h1; simp [setProp]
    · simp only [setProp, h1, if_false, List.map_cons, List.mem_cons, ih]
      tauto

theorem nodup_setProp {α : Type} (ps : List (String × α)) (k : String) (v : α)
    (h : (ps.map Prod.fst).Nodup) : ((setProp ps k v).map Prod.fst).Nodup := by
  induction ps with
  | nil => simp [setProp]
  | cons e rest ih =>
    obtain ⟨k1, v1⟩ := e
    simp only [List.map_cons, List.nodup_cons] at h
    by_cases h1 : k1 = k
    · subst h1; simpa [setProp] using h
    · simp only [setProp, if_neg h1, List.map_cons, List.nodup_cons, keys_setProp]
      exact ⟨fun hc => hc.elim h1 h.1, ih h.2⟩

theorem mem_setProp {α : Type} (ps : List (String × α)) (k : String) (v : α)
    (e : String × α) (h : e ∈ setProp ps k v) : e = (k, v) ∨ e ∈ ps := by
  induction ps with
  | nil => simpa [setProp] using h
  | cons e1 rest ih =>
    obtain ⟨k1, v1⟩ := e1
    by_cases h1 : k1 = k
    · simp only [setProp, h1, if_true, List.mem_cons] at h
      rcases h with h | h
      · exact Or.inl h
      · exact Or.inr (List.mem_cons_of_mem _ h)
    · simp only [setProp, h1, if_false, List.mem_cons] at h
      rcases h with h | h
      · exact Or.inr (h ▸ List.mem_cons_self _ _)
      · rcases ih h with h | h
        · exact Or.inl h
        · exact Or.inr (List.mem_cons_of_mem _ h)

/-! ## The table built by `MethodsOf` -/

theorem registerAll_keys (r : RecvId) (ms : List Method) :
    ∀ (t : List (String × Wrapper)) (n : String),
      n ∈ (registerAll r ms t).map Prod.fst ↔
        n ∈ ms.map Method.Name ∨ n ∈ t.map Prod.fst := by
  induction ms with
  | nil => intro t n; simp [registerAll]
  | cons m rest ih =>
    intro t n
    have := ih (setProp t m.Name { receiver := r, m := m }) n
    simp only [registerAll, List.foldl_cons] at this ⊢
    rw [this, keys_setProp]
    simp only [List.map_cons, List.mem_cons]
    tauto

theorem registerAll_nodup (r : RecvId) (ms : List Method) :
    ∀ (t : List (String × Wrapper)), (t.map Prod.fst).Nodup →
      ((registerAll r ms t).map Prod.fst).Nodup := by
  induction ms with
  | nil => intro t h; simpa [registerAll] using h
  | cons m rest ih =>
    intro t h
    simp only [registerAll, List.foldl_cons]
    exact ih _ (nodup_setProp t _ _ h)

theorem registerAll_mem (r : RecvId) (ms : List Method) :
    ∀ (t : List (String × Wrapper)) (e : String × Wrapper), e ∈ registerAll r ms t →
      e ∈ t ∨ ∃ m ∈ ms, e = (m.Name, { receiver := r, m := m }) := by
  induction ms with
  | nil => intro t e h; exact Or.inl (by simpa [registerAll] using h)
  | cons m rest ih =>
    intro t e h
    simp only [registerAll, List.foldl_cons] at h
    rcases ih _ e h with h1 | ⟨m1, hm1, he⟩
    · rcases mem_setProp _ _ _ _ h1 with h2 | h2
      · exact Or.inr ⟨m, List.mem_cons_self _ _, h2⟩
      · exact Or.inl h2
    · exact Or.inr ⟨m1, List.mem_cons_of_mem _ hm1, he⟩

theorem registerAll_get_other (r : RecvId) (ms : List Method) :
    ∀ (t : List (String × Wrapper)) (n : String), n ∉ ms.map Method.Name →
      getProp (registerAll r ms t) n = getProp t n := by
  induction ms with
  | nil => intro t n _; simp [registerAll]
  | cons m rest ih =>
    intro t n h
    simp only [List.map_cons, List.mem_cons, not_or] at h
    simp only [registerAll, List.foldl_cons]
    have := ih (setProp t m.Name { receiver := r, m := m }) n h.2
    simp only [registerAll] at this
    rw [this, getProp_setProp, if_neg (fun hc => h.1 hc.symm)]

theorem registerAll_get (r : RecvId) (ms : List Method) :
    ∀ (t : List (String × Wrapper)) (m : Method), m ∈ ms → (ms.map Method.Name).Nodup →
      getProp (registerAll r ms t) m.Name = some { receiver := r, m := m } := by
  induction ms with
  | nil => intro t m h; simp at h
  | cons m1 rest ih =>
    intro t m h hnd
    simp only [List.map_cons, List.nodup_cons] at hnd
    rcases List.mem_cons.mp h with h1 | h1
    · subst h1
      have := registerAll_get_other r rest (setProp t m.Name { receiver := r, m := m }) m.Name hnd.1
      simp only [registerAll, List.foldl_cons] at this ⊢
      rw [this, getProp_setProp, if_pos rfl]
    · have := ih (setProp t m1.Name { receiver := r, m := m1 }) m h1 hnd.2
      simp only [registerAll, List.foldl_cons] at this ⊢
      exact this

/-- Registering never removes a name: every reflected method has an entry
under its name, held by a wrapper with the shared receiver. -/
theorem registerAll_get_some (r : RecvId) (ms : List Method) :
    ∀ (t : List (String × Wrapper)) (m : Method), m ∈ ms →
      ∃ w, getProp (registerAll r ms t) m.Name = some w ∧ w.receiver = r ∧
        w.m.Name = m.Name ∧ w.m ∈ ms := by
  induction ms with
  | nil => intro t m h; simp at h
  | cons m1 rest ih =>
    intro t m h
    by_cases hin : m ∈ rest
    · obtain ⟨w, h1, h2, h3, h4⟩ := ih (setProp t m1.Name { receiver := r, m := m1 }) m hin
      exact ⟨w, by simpa only [registerAll, List.foldl_cons] using h1, h2, h3,
        List.mem_cons_of_mem _ h4⟩
    · have hm : m = m1 := by
        rcases List.mem_cons.mp h with h1 | h1
        · exact h1
        · exact absurd h1 hin
      subst hm
      by_cases hn : m.Name ∈ rest.map Method.Name
      · obtain ⟨m2, hm2, hname⟩ := List.mem_map.mp hn
        obtain ⟨w, h1, h2, h3, h4⟩ := ih (setProp t m.Name { receiver := r, m := m }) m2 hm2
        refine ⟨w, ?_, h2, h3.trans hname, List.mem_cons_of_mem _ h4⟩
        rw [← hname]
        simpa only [registerAll, List.foldl_cons] using h1
      · refine ⟨{ receiver := r, m := m }, ?_, rfl, rfl, List.mem_cons_self _ _⟩
        have := registerAll_get_other r rest (setProp t m.Name { receiver := r, m := m }) m.Name hn
        simp only [registerAll, List.foldl_cons] at this ⊢
        rw [this, getProp_setProp, if_pos rfl]

/-- The state after the registration loop: only the method table changes. -/
theorem foldl_setMethod (r : RecvId) (ms : List Method) :
    ∀ (s : State),
      ms.foldl (fun st m => st.setMethod m.Name { receiver := r, m := m }) s =
        { s with c := { s.c with Methods :=
            if ms = [] then s.c.Methods else some (registerAll r ms s.entries) } } := by
  induction ms with
  | nil => intro s; simp
  | cons m rest ih =>
    intro s
    rw [List.foldl_cons, ih]
    by_cases hr : rest = []
    · subst hr; simp [State.setMethod, registerAll, State.entries]
    · simp [hr, State.setMethod, registerAll, State.entries]

/-- The result of `MethodsOf` on a pointer type, in closed form. -/
theorem MethodsOf_ptr (typ : RType) (s : State) (h : typ.Kind = Kind.Ptr) :
    MethodsOf typ s = Result.ok
      { c := { s.c with Methods := some (registerAll s.nextReceiver typ.reflectMethods s.entries) },
        receivers := Function.update s.receivers s.nextReceiver none,
        nextReceiver := s.nextReceiver + 1 } := by
  unfold MethodsOf
  simp only [h, ne_eq, not_true_eq_false, if_false, foldl_setMethod]
  by_cases hm : s.c.Methods = none
  · by_cases hr : typ.reflectMethods = [] <;>
      simp [hm, hr, State.entries, registerAll]
  · obtain ⟨t, ht⟩ := Option.ne_none_iff_exists'.mp hm
    by_cases hr : typ.reflectMethods = [] <;>
      simp [ht, hr, State.entries, registerAll]

/-- The result of `MethodsOf` on a type that is not a pointer, in closed form. -/
theorem MethodsOf_nonptr (typ : RType) (s : State) (h : typ.Kind ≠ Kind.Ptr) :
    MethodsOf typ s = Result.panic "Item passed to MethodsOf must be a pointer"
      { s with c := { s.c with Methods := some s.entries } } := by
  obtain ⟨⟨el, d, ms, dv⟩, rc, nx⟩ := s
  cases ms <;> simp [MethodsOf, h, State.entries]

theorem wantsVM_iff (m : Method) : m.wantsVM = true ↔ m.params.head? = some vmType := by
  unfold Method.wantsVM Method.NumIn Method.In
  cases hp : m.params with
  | nil => simp
  | cons t rest => simp

theorem declared_eq (m : Method) :
    m.declared = m.params.length - (if m.params.head? = some vmType then 1 else 0) := by
  unfold Method.declared
  by_cases h : m.wantsVM = true
  · have h2 := (wantsVM_iff m).mp h
    simp only [if_pos h, if_pos h2, Method.NumIn]; omega
  · have h2 : ¬ m.params.head? = some vmType := fun hc => h ((wantsVM_iff m).mpr hc)
    simp only [if_neg h, if_neg h2, Method.NumIn]; omega

/-! ## Claims about the method bridge -/

/-- The argument check of `reflect` rejects a list of `NumIn` entries that
holds the zero `Value`, whatever the parameter types are. -/
theorem reflectCall_zero (m : Method) (args : List RValue)
    (hlen : args.length = m.NumIn) (hz : RValue.zero ∈ args) :
    reflectCall m args = Except.error ReflectPanic.zeroValue := by
  unfold reflectCall
  by_cases hvar : m.variadic = true
  · have h1 : ¬ m.NumIn < m.NumIn - 1 := by omega
    simp [hvar, hlen, hz, h1]
  · have hv : m.variadic = false := by simpa using hvar
    simp [hv, hlen, hz]

/-- C2 fails as stated: the wrapper of `M(a, b)` called with the single
argument 11 meets no out-of-range index; it reaches the call of `M` with the
zero `reflect.Value` in the position of `b`, and the invocation ends in the
panic of `reflect` on that zero `Value`, not in an index failure. -/
theorem wrapper_underflow_reaches_call :
    ∃ s1 w, MethodsOf exPtrType State.init = Result.ok s1 ∧
      getProp s1.entries "M" = some w ∧
      (w.call s1 7 [11]).2
        = CallOutcome.called exTwo [RValue.receiver 0, RValue.js 11, RValue.zero] ∧
      (w.call s1 7 [11]).2 ≠ CallOutcome.indexOutOfRange ∧
      w.invoke s1 7 [11] = Invocation.reflectPanic ReflectPanic.zeroValue ∧
      w.invoke s1 7 [11] ≠ Invocation.indexOutOfRange := by
  refine ⟨_, { receiver := 0, m := exTwo }, MethodsOf_ptr exPtrType State.init (by decide),
    by decide, by decide, by decide, by decide, by decide⟩

/-- C2 as amended: with fewer foreign arguments than the method declares,
the invocation fails and the method is never invoked, on a zero or unset
value or on any other list; the failure is not an out-of-range index while
the wrapper assembles the list, which is completed with the zero
`reflect.Value` in every missing position, but the panic with which the
argument check of `reflect` rejects that zero `Value`. -/
theorem methodsOf_wrapper_underflow (typ : RType) (s : State) (m : Method)
    (this : JsObject) (jsArgs : List JsObject)
    (hptr : typ.Kind = Kind.Ptr)
    (hnames : (typ.reflectMethods.map Method.Name).Nodup)
    (hm : m ∈ typ.methods) (hexp : m.exported = true)
    (hlen : jsArgs.length
      < m.params.length - (if m.params.head? = some vmType then 1 else 0)) :
    ∃ s1 w, MethodsOf typ s = Result.ok s1 ∧ getProp s1.entries m.Name = some w ∧
      w.m = m ∧
      ∀ s2 : State,
        w.invoke s2 this jsArgs = Invocation.reflectPanic ReflectPanic.zeroValue ∧
        (∀ m1 args, w.invoke s2 this jsArgs ≠ Invocation.invoked m1 args) ∧
        (w.call s2 this jsArgs).2 ≠ CallOutcome.indexOutOfRange ∧
        (w.call s2 this jsArgs).2 =
          CallOutcome.called m ([RValue.receiver w.receiver]
            ++ (if m.params.head? = some vmType then [RValue.vm { Object := this }] else [])
            ++ jsArgs.map RValue.js
            ++ List.replicate
                (m.params.length - (if m.params.head? = some vmType then 1 else 0)
                  - jsArgs.length) RValue.zero) := by
  have hmem : m ∈ typ.reflectMethods := List.mem_filter.mpr ⟨hm, hexp⟩
  refine ⟨_, { receiver := s.nextReceiver, m := m }, MethodsOf_ptr typ s hptr, ?_, rfl, ?_⟩
  · exact registerAll_get _ _ _ m hmem hnames
  · intro s2
    have hlt : jsArgs.length < m.declared := by rw [declared_eq]; exact hlen
    have hd : jsArgs.length ≤ m.declared := Nat.le_of_lt hlt
    have hcall := call_outcome (Wrapper.mk s.nextReceiver m) s2 this jsArgs
    simp only [hd, if_true] at hcall
    have hzero : reflectCall m (leadArgs (Wrapper.mk s.nextReceiver m) this
        ++ jsArgs.map RValue.js
        ++ List.replicate (m.declared - jsArgs.length) RValue.zero)
          = Except.error ReflectPanic.zeroValue := by
      apply reflectCall_zero
      · have hn := numIn_eq m
        have hl := leadArgs_length (Wrapper.mk s.nextReceiver m) this
        simp only [List.length_append, List.length_map, List.length_replicate, hl]
        omega
      · apply List.mem_append_right
        exact List.mem_replicate.mpr ⟨by omega, rfl⟩
    have hinv : (Wrapper.mk s.nextReceiver m).invoke s2 this jsArgs
        = Invocation.reflectPanic ReflectPanic.zeroValue := by
      simp only [Wrapper.invoke, hcall, hzero]
    refine ⟨hinv, ?_, ?_, ?_⟩
    · intro m1 args hc
      rw [hinv] at hc
      exact Invocation.noConfusion hc
    · rw [hcall]; exact fun hc => CallOutcome.noConfusion hc
    · rw [hcall]
      simp only [leadArgs, ← declared_eq]
      by_cases hv : m.wantsVM = true
      · simp [hv, (wantsVM_iff m).mp hv]
      · have h2 : ¬ m.params.head? = some vmType := fun hc => hv ((wantsVM_iff m).mpr hc)
        simp [hv, h2]

/-- C2 as amended, at `V(vm *VM, a, b)` called with handle 7 and the single
argument 11. -/
theorem methodsOf_wrapper_underflow_witness :
    ∃ s1 w, MethodsOf exPtrType State.init = Result.ok s1 ∧
      getProp s1.entries exVM.Name = some w ∧ w.m = exVM ∧
      ∀ s2 : State,
        w.invoke s2 7 [11] = Invocation.reflectPanic ReflectPanic.zeroValue ∧
        (∀ m1 args, w.invoke s2 7 [11] ≠ Invocation.invoked m1 args) ∧
        (w.call s2 7 [11]).2 ≠ CallOutcome.indexOutOfRange ∧
        (w.call s2 7 [11]).2 =
          CallOutcome.called exVM ([RValue.receiver w.receiver]
            ++ (if exVM.params.head? = some vmType then [RValue.vm { Object := 7 }] else [])
            ++ [11].map RValue.js
            ++ List.replicate
                (exVM.params.length - (if exVM.params.head? = some vmType then 1 else 0)
                  - [11].length) RValue.zero) :=
  methodsOf_wrapper_underflow exPtrType State.init exVM 7 [11] (by decide) (by decide)
    (by decide) (by decide) (by decide)

/-- C10: with more foreign arguments than the method declares, the copy loop
of the wrapper indexes past the end of the list sized by the declared
parameter count: the invocation ends in the out-of-range panic and the
method is not called with any argument list. -/
theorem methodsOf_wrapper_overflow (typ : RType) (s : State) (m : Method)
    (this : JsObject) (jsArgs : List JsObject)
    (hptr : typ.Kind = Kind.Ptr)
    (hnames : (typ.reflectMethods.map Method.Name).Nodup)
    (hm : m ∈ typ.methods) (hexp : m.exported = true)
    (hlen : m.params.length - (if m.params.head? = some vmType then 1 else 0)
      < jsArgs.length) :
    ∃ s1 w, MethodsOf typ s = Result.ok s1 ∧ getProp s1.entries m.Name = some w ∧
      w.m = m ∧
      ∀ s2 : State,
        (w.call s2 this jsArgs).2 = CallOutcome.indexOutOfRange ∧
        (∀ m1 goArgs, (w.call s2 this jsArgs).2 ≠ CallOutcome.called m1 goArgs) ∧
        copyArgs (List.replicate m.NumIn RValue.zero) (if m.wantsVM then 2 else 1) jsArgs
          = none := by
  have hmem : m ∈ typ.reflectMethods := List.mem_filter.mpr ⟨hm, hexp⟩
  refine ⟨_, { receiver := s.nextReceiver, m := m }, MethodsOf_ptr typ s hptr, ?_, rfl, ?_⟩
  · exact registerAll_get _ _ _ m hmem hnames
  · intro s2
    have hd : ¬ jsArgs.length ≤ m.declared := by rw [declared_eq]; omega
    have hout : ((Wrapper.mk s.nextReceiver m).call s2 this jsArgs).2
        = CallOutcome.indexOutOfRange := by
      rw [call_outcome]; simp only [hd, if_false]
    refine ⟨hout, ?_, ?_⟩
    · intro m1 goArgs hc
      rw [hout] at hc
      exact CallOutcome.noConfusion hc
    · have hn := numIn_eq m
      apply copyArgs_overflow
      · simp only [List.length_replicate]; omega
      · simp only [List.length_replicate]; omega

/-- C10 at `One(a)` called with the two arguments 11, 12. -/
theorem methodsOf_wrapper_overflow_witness :
    ∃ s1 w, MethodsOf exPtrType State.init = Result.ok s1 ∧
      getProp s1.entries exOne.Name = some w ∧ w.m = exOne ∧
      ∀ s2 : State,
        (w.call s2 7 [11, 12]).2 = CallOutcome.indexOutOfRange ∧
        (∀ m1 goArgs, (w.call s2 7 [11, 12]).2 ≠ CallOutcome.called m1 goArgs) ∧
        copyArgs (List.replicate exOne.NumIn RValue.zero) (if exOne.wantsVM then 2 else 1)
          [11, 12] = none :=
  methodsOf_wrapper_overflow exPtrType State.init exOne 7 [11, 12] (by decide) (by decide)
    (by decide) (by decide) (by decide)

/-- C3: `MethodsOf` on a pointer type, run on a configuration whose method
table is unset, leaves a table whose names are pairwise distinct and are
exactly the names of the exported methods of the type, one entry for each;
every entry is the wrapper of an exported method of the type under that
method's name, so no entry belongs to an unexported method. -/
theorem methodsOf_table_exact (typ : RType) (s : State)
    (hptr : typ.Kind = Kind.Ptr) (hunset : s.c.Methods = none) :
    ∃ s1 tbl, MethodsOf typ s = Result.ok s1 ∧ s1.c.Methods = some tbl ∧
      (tbl.map Prod.fst).Nodup ∧
      (∀ n, n ∈ tbl.map Prod.fst ↔ ∃ m ∈ typ.methods, m.exported = true ∧ m.Name = n) ∧
      (∀ m ∈ typ.methods, m.exported = true → (tbl.map Prod.fst).count m.Name = 1) ∧
      (∀ e ∈ tbl, e.2.m ∈ typ.methods ∧ e.2.m.exported = true ∧ e.2.m.Name = e.1) ∧
      (∀ m ∈ typ.methods, m.exported = false → ∀ e ∈ tbl, e.2.m ≠ m) := by
  have hent : s.entries = [] := by simp [State.entries, hunset]
  have hkeys : ∀ n, n ∈ (registerAll s.nextReceiver typ.reflectMethods s.entries).map Prod.fst
      ↔ ∃ m ∈ typ.methods, m.exported = true ∧ m.Name = n := by
    intro n
    rw [registerAll_keys, hent]
    simp only [List.map_nil, List.not_mem_nil, or_false, List.mem_map, RType.reflectMethods,
      List.mem_filter]
    constructor
    · rintro ⟨m, ⟨h1, h2⟩, h3⟩; exact ⟨m, h1, h2, h3⟩
    · rintro ⟨m, h1, h2, h3⟩; exact ⟨m, ⟨h1, h2⟩, h3⟩
  have hnd : ((registerAll s.nextReceiver typ.reflectMethods s.entries).map Prod.fst).Nodup :=
    registerAll_nodup _ _ _ (by simp [hent])
  have hwrap : ∀ e ∈ registerAll s.nextReceiver typ.reflectMethods s.entries,
      e.2.m ∈ typ.methods ∧ e.2.m.exported = true ∧ e.2.m.Name = e.1 := by
    intro e he
    rcases registerAll_mem _ _ _ e he with h | ⟨m, hm, rfl⟩
    · rw [hent] at h; simp at h
    · have := List.mem_filter.mp hm
      exact ⟨this.1, this.2, rfl⟩
  refine ⟨_, _, MethodsOf_ptr typ s hptr, rfl, hnd, hkeys, ?_, hwrap, ?_⟩
  · intro m hm hexp
    exact List.count_eq_one_of_mem hnd ((hkeys m.Name).mpr ⟨m, hm, hexp, rfl⟩)
  · intro m _ hexp e he hc
    have := (hwrap e he).2.1
    rw [hc, hexp] at this
    exact Bool.noConfusion this

/-- C3 at the example type, whose methods are `M`, `One`, `V` and the
unexported `hidden`, on the empty configuration. -/
theorem methodsOf_table_exact_witness :
    ∃ s1 tbl, MethodsOf exPtrType State.init = Result.ok s1 ∧ s1.c.Methods = some tbl ∧
      (tbl.map Prod.fst).Nodup ∧
      (∀ n, n ∈ tbl.map Prod.fst ↔
        ∃ m ∈ exPtrType.methods, m.exported = true ∧ m.Name = n) ∧
      (∀ m ∈ exPtrType.methods, m.exported = true → (tbl.map Prod.fst).count m.Name = 1) ∧
      (∀ e ∈ tbl, e.2.m ∈ exPtrType.methods ∧ e.2.m.exported = true ∧ e.2.m.Name = e.1) ∧
      (∀ m ∈ exPtrType.methods, m.exported = false → ∀ e ∈ tbl, e.2.m ≠ m) :=
  methodsOf_table_exact exPtrType State.init (by decide) (by decide)

/-- C4: `MethodsOf` on a pointer type allocates one receiver, the next free
one, and every reflected method has its table entry held by a wrapper with
that receiver. Whenever such a wrapper is invoked, in whatever state the
configuration then is and with whatever handle and arguments, field 0 of
that receiver afterwards equals the data slot the configuration has at the
call, the configuration is untouched, and if the method is called its first
argument is that receiver. -/
theorem methodsOf_shared_receiver (typ : RType) (s : State) (hptr : typ.Kind = Kind.Ptr) :
    ∃ s1, MethodsOf typ s = Result.ok s1 ∧ s1.nextReceiver = s.nextReceiver + 1 ∧
      (∀ e ∈ s1.entries, e ∈ s.entries ∨ e.2.receiver = s.nextReceiver) ∧
      ∀ m ∈ typ.methods, m.exported = true →
        ∃ w, getProp s1.entries m.Name = some w ∧ w.receiver = s.nextReceiver ∧
          ∀ (s2 : State) (this : JsObject) (jsArgs : List JsObject),
            (w.call s2 this jsArgs).1.receivers s.nextReceiver = some s2.c.Data ∧
            (w.call s2 this jsArgs).1.c = s2.c ∧
            ∀ m1 goArgs, (w.call s2 this jsArgs).2 = CallOutcome.called m1 goArgs →
              goArgs.head? = some (RValue.receiver s.nextReceiver) := by
  refine ⟨_, MethodsOf_ptr typ s hptr, rfl, ?_, ?_⟩
  · intro e he
    rcases registerAll_mem _ _ _ e he with h | ⟨m, _, rfl⟩
    · exact Or.inl h
    · exact Or.inr rfl
  · intro m hm hexp
    obtain ⟨w, h1, h2, _, _⟩ := registerAll_get_some s.nextReceiver typ.reflectMethods
      s.entries m (List.mem_filter.mpr ⟨hm, hexp⟩)
    refine ⟨w, h1, h2, ?_⟩
    intro s2 this jsArgs
    refine ⟨?_, ?_, ?_⟩
    · rw [call_eq, ← h2]; simp
    · rw [call_eq]
    · intro m1 goArgs hc
      rw [call_outcome] at hc
      split at hc
      · injection hc with _ hg
        rw [← hg, ← h2]
        simp [leadArgs]
      · exact CallOutcome.noConfusion hc

/-- C4 at the example type on the empty configuration. -/
theorem methodsOf_shared_receiver_witness :
    ∃ s1, MethodsOf exPtrType State.init = Result.ok s1 ∧
      s1.nextReceiver = State.init.nextReceiver + 1 ∧
      (∀ e ∈ s1.entries, e ∈ State.init.entries ∨ e.2.receiver = State.init.nextReceiver) ∧
      ∀ m ∈ exPtrType.methods, m.exported = true →
        ∃ w, getProp s1.entries m.Name = some w ∧ w.receiver = State.init.nextReceiver ∧
          ∀ (s2 : State) (this : JsObject) (jsArgs : List JsObject),
            (w.call s2 this jsArgs).1.receivers State.init.nextReceiver = some s2.c.Data ∧
            (w.call s2 this jsArgs).1.c = s2.c ∧
            ∀ m1 goArgs, (w.call s2 this jsArgs).2 = CallOutcome.called m1 goArgs →
              goArgs.head? = some (RValue.receiver State.init.nextReceiver) :=
  methodsOf_shared_receiver exPtrType State.init (by decide)

/-- C9: `MethodsOf` on a type that is not a pointer panics with its message,
in a state whose method table has the entries it had before (no wrapper is
registered), no receiver allocated and every other slot unchanged; on a
pointer type it completes normally. -/
theorem methodsOf_pointer_check (typ : RType) (s : State) :
    (typ.Kind ≠ Kind.Ptr →
      ∃ s1, MethodsOf typ s = Result.panic "Item passed to MethodsOf must be a pointer" s1 ∧
        s1.entries = s.entries ∧ s1.nextReceiver = s.nextReceiver ∧
        s1.receivers = s.receivers ∧ s1.c.Data = s.c.Data ∧ s1.c.El = s.c.El ∧
        s1.c.dataValue = s.c.dataValue) ∧
    (typ.Kind = Kind.Ptr → ∃ s1, MethodsOf typ s = Result.ok s1) := by
  constructor
  · intro h
    exact ⟨_, MethodsOf_nonptr typ s h, by simp [State.entries], rfl, rfl, rfl, rfl, rfl⟩
  · intro h
    exact ⟨_, MethodsOf_ptr typ s h⟩

/-- C9 at a struct passed by value and at a pointer, on the empty
configuration. -/
theorem methodsOf_pointer_check_witness :
    (∃ s1, MethodsOf exStructType State.init
        = Result.panic "Item passed to MethodsOf must be a pointer" s1 ∧
        s1.entries = State.init.entries ∧ s1.nextReceiver = State.init.nextReceiver ∧
        s1.receivers = State.init.receivers ∧ s1.c.Data = State.init.c.Data ∧
        s1.c.El = State.init.c.El ∧ s1.c.dataValue = State.init.c.dataValue) ∧
    (∃ s1, MethodsOf exPtrType State.init = Result.ok s1) :=
  ⟨(methodsOf_pointer_check exStructType State.init).1 (by decide),
   (methodsOf_pointer_check exPtrType State.init).2 (by decide)⟩

/-! ## Running the options -/

theorem option_append (a b : List option) : ∀ (s : State),
    Config.Option s (a ++ b) =
      match Config.Option s a with
      | Result.ok s1 => Config.Option s1 b
      | Result.panic msg s1 => Result.panic msg s1 := by
  induction a with
  | nil => intro s; rfl
  | cons o rest ih =>
    intro s
    simp only [List.cons_append, Config.Option]
    cases o s with
    | ok s1 => exact ih s1
    | panic msg s1 => rfl

theorem runCalls_cons (s : State) (o : OptionCall) (rest : List OptionCall) :
    runCalls s (o :: rest) =
      match o.toOption s with
      | Result.ok s1 => runCalls s1 rest
      | Result.panic msg s1 => Result.panic msg s1 := by
  simp only [runCalls, List.map_cons, Config.Option]

/-- The option `Data` always completes; it leaves the data slot defined and
touches nothing else. -/
theorem Data_ok (n : String) (v : GoValue) (s : State) :
    ∃ s1, Data n v s = Result.ok s1 ∧ s1.c.Data ≠ JsData.undefined ∧
      s1.c.dataValue = s.c.dataValue ∧ s1.c.Methods = s.c.Methods ∧
      s1.receivers = s.receivers ∧ s1.nextReceiver = s.nextReceiver := by
  refine ⟨_, rfl, ?_, rfl, rfl, rfl, rfl⟩
  cases h : s.c.Data <;> simp [h]

/-- The option `DataS` panics on a defined data slot and leaves the state as
it found it. -/
theorem DataS_defined (p : Ptr) (s : State) (h : s.c.Data ≠ JsData.undefined) :
    DataS p s = Result.panic "Cannot use hvue.Data and hvue.DataS together" s := by
  simp [DataS, h]

theorem DataS_undefined (p : Ptr) (s : State) (h : s.c.Data = JsData.undefined) :
    DataS p s = Result.ok { s with c := { s.c with Data := JsData.struct p [],
                                                   dataValue := some p } } := by
  simp [DataS, h]

/-- An option that completes keeps a defined data slot defined. -/
theorem step_defined (o : OptionCall) (s s1 : State) (h : s.c.Data ≠ JsData.undefined)
    (hok : o.toOption s = Result.ok s1) : s1.c.Data ≠ JsData.undefined := by
  cases o with
  | el sel =>
    simp only [OptionCall.toOption, El, Result.ok.injEq] at hok
    rw [← hok]; exact h
  | data n v =>
    obtain ⟨s2, h1, h2, _⟩ := Data_ok n v s
    simp only [OptionCall.toOption] at hok
    rw [h1, Result.ok.injEq] at hok
    rw [← hok]; exact h2
  | dataS p =>
    simp only [OptionCall.toOption, DataS_defined p s h] at hok
    exact Result.noConfusion hok
  | methodsOf t =>
    simp only [OptionCall.toOption] at hok
    by_cases hk : t.Kind = Kind.Ptr
    · rw [MethodsOf_ptr t s hk, Result.ok.injEq] at hok
      rw [← hok]; exact h
    · rw [MethodsOf_nonptr t s hk] at hok
      exact Result.noConfusion hok

/-- A run that completes ends with a defined data slot when the slot was
defined at its start or a `Data` call is among the options. -/
theorem run_defined (opts : List OptionCall) : ∀ (s s1 : State),
    (s.c.Data ≠ JsData.undefined ∨ ∃ o ∈ opts, o.isData = true) →
    runCalls s opts = Result.ok s1 → s1.c.Data ≠ JsData.undefined := by
  induction opts with
  | nil =>
    intro s s1 h hok
    simp only [runCalls, List.map_nil, Config.Option, Result.ok.injEq] at hok
    rcases h with h | ⟨o, ho, _⟩
    · rw [← hok]; exact h
    · simp at ho
  | cons o rest ih =>
    intro s s1 h hok
    rw [runCalls_cons] at hok
    cases hstep : o.toOption s with
    | panic msg s2 => rw [hstep] at hok; exact Result.noConfusion hok
    | ok s2 =>
      rw [hstep] at hok
      refine ih s2 s1 ?_ hok
      rcases h with h | ⟨o1, ho1, hd⟩
      · exact Or.inl (step_defined o s s2 h hstep)
      · rcases List.mem_cons.mp ho1 with h1 | h1
        · subst h1
          cases o1 with
          | data n v =>
            obtain ⟨s3, h3, h4, _⟩ := Data_ok n v s
            simp only [OptionCall.toOption] at hstep
            rw [h3, Result.ok.injEq] at hstep
            exact Or.inl (hstep ▸ h4)
          | el sel => simp [OptionCall.isData] at hd
          | dataS p => simp [OptionCall.isData] at hd
          | methodsOf t => simp [OptionCall.isData] at hd
        · exact Or.inr ⟨o1, h1, hd⟩

/-! ## Claims about the data options -/

theorem NewVM_of_panic (vueNew : Config → JsObject) (heap : Heap) (opts : List option)
    (msg : String) (s : State) (h : Config.Option State.init opts = Result.panic msg s) :
    NewVM vueNew heap opts =
      { result := Except.error msg, state := s, handed := [], heap := heap, writes := [] } := by
  unfold NewVM; rw [h]

/-- A run in which `DataS` follows a `Data` call ends in a panic. -/
theorem run_dataS_after_data (pre post : List OptionCall) (p : Ptr)
    (hdata : ∃ o ∈ pre, o.isData = true) :
    ∃ msg s, runCalls State.init (pre ++ OptionCall.dataS p :: post) = Result.panic msg s ∧
      ∀ s0, runCalls State.init pre = Result.ok s0 →
        msg = "Cannot use hvue.Data and hvue.DataS together" ∧ s = s0 := by
  simp only [runCalls, List.map_append, option_append, List.map_cons]
  cases hpre : Config.Option State.init (pre.map OptionCall.toOption) with
  | panic msg s => exact ⟨msg, s, rfl, fun s0 h => Result.noConfusion h⟩
  | ok s1 =>
    have hdef : s1.c.Data ≠ JsData.undefined :=
      run_defined pre State.init s1 (Or.inr hdata) hpre
    refine ⟨"Cannot use hvue.Data and hvue.DataS together", s1, ?_, ?_⟩
    · simp only [Config.Option, OptionCall.toOption, DataS_defined p s1 hdef]
    · intro s0 h
      rw [Result.ok.injEq] at h
      exact ⟨rfl, h⟩

/-- C6: when a `Data` call comes before a `DataS` call in the options of
`NewVM`, construction panics and no record is handed to the foreign
constructor; whenever the options before the `DataS` call complete, the data
slot is defined when `DataS` runs, `DataS` panics there with its message and
leaves the state, with the data slot and `dataValue`, exactly as it found
it, and that panic is the result of `NewVM`. -/
theorem newVM_dataS_after_data (vueNew : Config → JsObject) (heap : Heap)
    (pre post : List OptionCall) (p : Ptr) (hdata : ∃ o ∈ pre, o.isData = true) :
    (∃ msg, (buildOf vueNew heap (pre ++ OptionCall.dataS p :: post)).result
          = Except.error msg) ∧
    (buildOf vueNew heap (pre ++ OptionCall.dataS p :: post)).handed = [] ∧
    (buildOf vueNew heap (pre ++ OptionCall.dataS p :: post)).writes = [] ∧
    ∀ s, runCalls State.init pre = Result.ok s →
      s.c.Data ≠ JsData.undefined ∧
      DataS p s = Result.panic "Cannot use hvue.Data and hvue.DataS together" s ∧
      (buildOf vueNew heap (pre ++ OptionCall.dataS p :: post)).result
          = Except.error "Cannot use hvue.Data and hvue.DataS together" ∧
      (buildOf vueNew heap (pre ++ OptionCall.dataS p :: post)).state.c = s.c := by
  obtain ⟨msg, s1, hrun, hmsg⟩ := run_dataS_after_data pre post p hdata
  have hb : buildOf vueNew heap (pre ++ OptionCall.dataS p :: post) = _ :=
    NewVM_of_panic vueNew heap _ msg s1 hrun
  refine ⟨⟨msg, by rw [hb]⟩, by rw [hb], by rw [hb], ?_⟩
  intro s hs
  have hdef : s.c.Data ≠ JsData.undefined := run_defined pre State.init s (Or.inr hdata) hs
  obtain ⟨h1, h2⟩ := hmsg s hs
  refine ⟨hdef, DataS_defined p s hdef, ?_, ?_⟩
  · rw [hb, h1]
  · rw [hb, h2]

/-- C6 at the options `El("#app")`, `Data("a", 1)`, `DataS(1)`, `El("#x")`:
the first two options complete, `DataS` panics in the state they leave, and
that panic is the result of `NewVM`, with no record handed on. -/
theorem newVM_dataS_after_data_witness :
    (∃ s, runCalls State.init [OptionCall.el "#app", OptionCall.data "a" 1] = Result.ok s ∧
      s.c.Data = JsData.object [("a", 1)] ∧
      DataS 1 s = Result.panic "Cannot use hvue.Data and hvue.DataS together" s) ∧
    (buildOf exVue exHeap
        ([OptionCall.el "#app", OptionCall.data "a" 1] ++
          OptionCall.dataS 1 :: [OptionCall.el "#x"])).result
      = Except.error "Cannot use hvue.Data and hvue.DataS together" ∧
    (buildOf exVue exHeap
        ([OptionCall.el "#app", OptionCall.data "a" 1] ++
          OptionCall.dataS 1 :: [OptionCall.el "#x"])).handed = [] :=
  have h := newVM_dataS_after_data exVue exHeap
    [OptionCall.el "#app", OptionCall.data "a" 1] [OptionCall.el "#x"] 1
    ⟨OptionCall.data "a" 1, by decide, rfl⟩
  ⟨⟨_, rfl, rfl, (h.2.2.2 _ rfl).2.1⟩, (h.2.2.2 _ rfl).2.2.1, h.2.1⟩

/-- C5 fails on the code: with the options `DataS(1)`, `Data("x", 3)` the
option `Data` finds the data slot defined, sets the property on the struct
payload and completes; `NewVM` hands the record to the foreign constructor
and returns the new VM. -/
theorem newVM_data_after_dataS_completes :
    (buildOf exVue exHeap [OptionCall.dataS 1, OptionCall.data "x" 3]).result
        = Except.ok { Object := 42 } ∧
    (buildOf exVue exHeap [OptionCall.dataS 1, OptionCall.data "x" 3]).handed.map
        Config.Data = [JsData.struct 1 [("x", 3)]] ∧
    ∀ (n : String) (v : GoValue) (s : State), ∃ s1, Data n v s = Result.ok s1 := by
  refine ⟨rfl, by decide, ?_⟩
  intro n v s
  exact ⟨_, rfl⟩

/-! ## Struct fields -/

theorem FieldByName_setField_same (fs : List Field) (k : String) (v : FieldVal) (f : Field)
    (h : FieldByName fs k = some f) :
    FieldByName (setField fs k v) k = some { f with value := v } := by
  induction fs with
  | nil => simp [FieldByName] at h
  | cons g rest ih =>
    by_cases hg : g.name = k
    · simp only [FieldByName, List.find?_cons, hg, decide_True, Option.some.injEq] at h
      subst h
      simp [FieldByName, setField, hg]
    · simp only [FieldByName, List.find?_cons, hg, decide_False] at h
      simp only [FieldByName, setField, hg, if_false, List.find?_cons, decide_False]
      exact ih h

theorem FieldByName_setField_other (fs : List Field) (k n : String) (v : FieldVal)
    (h : n ≠ k) : FieldByName (setField fs k v) n = FieldByName fs n := by
  induction fs with
  | nil => rfl
  | cons g rest ih =>
    by_cases hg : g.name = k
    · have hn : ¬ g.name = n := fun hc => h (hc ▸ hg)
      simp [FieldByName, setField, hg, hn, h.symm]
    · by_cases hn : g.name = n
      · simp only [setField, if_neg hg]
        simp only [FieldByName, List.find?_cons, hn, decide_True]
      · simp only [setField, if_neg hg]
        simp only [FieldByName, List.find?_cons, hn, decide_False]
        exact ih

theorem names_setField (fs : List Field) (k : String) (v : FieldVal) :
    (setField fs k v).map Field.name = fs.map Field.name := by
  induction fs with
  | nil => rfl
  | cons g rest ih =>
    by_cases hg : g.name = k
    · simp [setField, hg]
    · simp [setField, hg, ih]

/-! ## The effect of the options on the data slot -/

/-- An option other than `Data` and `DataS`, and not a `MethodsOf` on a
non-pointer, completes and leaves the data slot and `dataValue` alone. -/
theorem step_neutral (o : OptionCall) (s : State) (h1 : o.isData = false)
    (h2 : o.isDataS = false) (h3 : o.badBridge = false) :
    ∃ s1, o.toOption s = Result.ok s1 ∧ s1.c.Data = s.c.Data ∧
      s1.c.dataValue = s.c.dataValue := by
  cases o with
  | el sel => exact ⟨_, rfl, rfl, rfl⟩
  | data n v => simp [OptionCall.isData] at h1
  | dataS p => simp [OptionCall.isDataS] at h2
  | methodsOf t =>
    have hk : t.Kind = Kind.Ptr := by simpa [OptionCall.badBridge] using h3
    exact ⟨_, MethodsOf_ptr t s hk, rfl, rfl⟩

theorem mem_dataSOf (opts : List OptionCall) (p : Ptr) :
    p ∈ dataSOf opts ↔ OptionCall.dataS p ∈ opts := by
  induction opts with
  | nil => simp [dataSOf]
  | cons o rest ih =>
    cases o <;> simp [dataSOf, ih]

theorem dataSOf_nil_iff (opts : List OptionCall) :
    dataSOf opts = [] ↔ ∀ o ∈ opts, o.isDataS = false := by
  induction opts with
  | nil => simp [dataSOf]
  | cons o rest ih =>
    cases o <;> simp [dataSOf, ih, OptionCall.isDataS]

/-- An option that is not `DataS` keeps `dataValue` when it completes. -/
theorem step_dataValue (o : OptionCall) (s s1 : State) (h : o.isDataS = false)
    (hok : o.toOption s = Result.ok s1) : s1.c.dataValue = s.c.dataValue := by
  cases o with
  | el sel =>
    simp only [OptionCall.toOption, El, Result.ok.injEq] at hok
    rw [← hok]
  | data n v =>
    obtain ⟨s2, h1, _, h2, _⟩ := Data_ok n v s
    simp only [OptionCall.toOption] at hok
    rw [h1, Result.ok.injEq] at hok
    rw [← hok]; exact h2
  | dataS p => simp [OptionCall.isDataS] at h
  | methodsOf t =>
    simp only [OptionCall.toOption] at hok
    by_cases hk : t.Kind = Kind.Ptr
    · rw [MethodsOf_ptr t s hk, Result.ok.injEq] at hok
      rw [← hok]
    · rw [MethodsOf_nonptr t s hk] at hok
      exact Result.noConfusion hok

/-- After the data slot is defined, a run that completes has no `DataS`
call and keeps `dataValue`. -/
theorem run_after_defined (opts : List OptionCall) : ∀ (s s1 : State),
    s.c.Data ≠ JsData.undefined → runCalls s opts = Result.ok s1 →
    dataSOf opts = [] ∧ s1.c.dataValue = s.c.dataValue := by
  induction opts with
  | nil =>
    intro s s1 _ hok
    simp only [runCalls, List.map_nil, Config.Option, Result.ok.injEq] at hok
    exact ⟨rfl, by rw [hok]⟩
  | cons o rest ih =>
    intro s s1 hdef hok
    rw [runCalls_cons] at hok
    cases hstep : o.toOption s with
    | panic msg s2 => rw [hstep] at hok; exact Result.noConfusion hok
    | ok s2 =>
      rw [hstep] at hok
      have hnot : o.isDataS = false := by
        cases o with
        | dataS p =>
          simp only [OptionCall.toOption, DataS_defined p s hdef] at hstep
          exact Result.noConfusion hstep
        | el sel => rfl
        | data n v => rfl
        | methodsOf t => rfl
      obtain ⟨h1, h2⟩ := ih s2 s1 (step_defined o s s2 hdef hstep) hok
      refine ⟨?_, by rw [h2, step_dataValue o s s2 hnot hstep]⟩
      cases o with
      | dataS p => simp [OptionCall.isDataS] at hnot
      | el sel => simpa [dataSOf] using h1
      | data n v => simpa [dataSOf] using h1
      | methodsOf t => simpa [dataSOf] using h1

/-- A run that completes applied at most one `DataS`, and `dataValue` at
its end is the pointer of that call, or is what it was at the start. -/
theorem run_dataValue (opts : List OptionCall) : ∀ (s s1 : State),
    runCalls s opts = Result.ok s1 →
    (dataSOf opts = [] ∧ s1.c.dataValue = s.c.dataValue) ∨
    (∃ p, dataSOf opts = [p] ∧ s1.c.dataValue = some p) := by
  induction opts with
  | nil =>
    intro s s1 hok
    simp only [runCalls, List.map_nil, Config.Option, Result.ok.injEq] at hok
    exact Or.inl ⟨rfl, by rw [hok]⟩
  | cons o rest ih =>
    intro s s1 hok
    rw [runCalls_cons] at hok
    cases hstep : o.toOption s with
    | panic msg s2 => rw [hstep] at hok; exact Result.noConfusion hok
    | ok s2 =>
      rw [hstep] at hok
      cases o with
      | dataS p =>
        by_cases hdef : s.c.Data = JsData.undefined
        · simp only [OptionCall.toOption, DataS_undefined p s hdef, Result.ok.injEq] at hstep
          have h2def : s2.c.Data ≠ JsData.undefined := by rw [← hstep]; simp
          obtain ⟨h1, h2⟩ := run_after_defined rest s2 s1 h2def hok
          refine Or.inr ⟨p, by simp [dataSOf, h1], ?_⟩
          rw [h2, ← hstep]
        · simp only [OptionCall.toOption, DataS_defined p s hdef] at hstep
          exact Result.noConfusion hstep
      | el sel =>
        have hv := step_dataValue _ s s2 (by rfl) hstep
        rcases ih s2 s1 hok with ⟨h1, h2⟩ | ⟨p, h1, h2⟩
        · exact Or.inl ⟨by simpa [dataSOf] using h1, by rw [h2, hv]⟩
        · exact Or.inr ⟨p, by simpa [dataSOf] using h1, h2⟩
      | data n v =>
        have hv := step_dataValue _ s s2 (by rfl) hstep
        rcases ih s2 s1 hok with ⟨h1, h2⟩ | ⟨p, h1, h2⟩
        · exact Or.inl ⟨by simpa [dataSOf] using h1, by rw [h2, hv]⟩
        · exact Or.inr ⟨p, by simpa [dataSOf] using h1, h2⟩
      | methodsOf t =>
        have hv := step_dataValue _ s s2 (by rfl) hstep
        rcases ih s2 s1 hok with ⟨h1, h2⟩ | ⟨p, h1, h2⟩
        · exact Or.inl ⟨by simpa [dataSOf] using h1, by rw [h2, hv]⟩
        · exact Or.inr ⟨p, by simpa [dataSOf] using h1, h2⟩

/-! ## The back-reference -/

theorem NewVM_handed (vueNew : Config → JsObject) (heap : Heap) (opts : List option)
    (s : State) (h : Config.Option State.init opts = Result.ok s) :
    (NewVM vueNew heap opts).handed = [s.c] := by
  unfold NewVM; rw [h]
  simp only
  split
  · rfl
  · split
    · rfl
    · split <;> rfl

theorem NewVM_of_ok_none (vueNew : Config → JsObject) (heap : Heap) (opts : List option)
    (s : State) (h : Config.Option State.init opts = Result.ok s)
    (hv : s.c.dataValue = none) :
    NewVM vueNew heap opts =
      { result := Except.ok { Object := vueNew s.c }, state := s, handed := [s.c],
        heap := heap, writes := [] } := by
  unfold NewVM; rw [h]; simp only [hv]

theorem NewVM_of_ok_nofield (vueNew : Config → JsObject) (heap : Heap) (opts : List option)
    (s : State) (p : Ptr) (h : Config.Option State.init opts = Result.ok s)
    (hv : s.c.dataValue = some p) (hf : FieldByName (heap p) "VM" = none) :
    NewVM vueNew heap opts =
      { result := Except.ok { Object := vueNew s.c }, state := s, handed := [s.c],
        heap := heap, writes := [] } := by
  unfold NewVM; rw [h]; simp only [hv, hf]

theorem NewVM_of_ok_field (vueNew : Config → JsObject) (heap : Heap) (opts : List option)
    (s : State) (p : Ptr) (f : Field) (h : Config.Option State.init opts = Result.ok s)
    (hv : s.c.dataValue = some p) (hf : FieldByName (heap p) "VM" = some f)
    (ht : f.type.assignableVM = true) :
    NewVM vueNew heap opts =
      { result := Except.ok { Object := vueNew s.c }, state := s, handed := [s.c],
        heap := Function.update heap p
          (setField (heap p) "VM" (FieldVal.vm { Object := vueNew s.c })),
        writes := [(p, "VM")] } := by
  unfold NewVM; rw [h]; simp only [hv, hf, ht, if_true]

/-- C7 fails as stated: with the options `Data("a", 1)`, `DataS(2)`, where
struct 2 has no field `VM` and `DataS(2)` is the only `DataS` call, `NewVM`
does not return normally: it panics in `DataS`. -/
theorem newVM_without_vm_field_can_abort :
    dataSOf [OptionCall.data "a" 1, OptionCall.dataS 2] = [2] ∧
    FieldByName (exHeap 2) "VM" = none ∧
    (buildOf exVue exHeap [OptionCall.data "a" 1, OptionCall.dataS 2]).result
      = Except.error "Cannot use hvue.Data and hvue.DataS together" ∧
    (buildOf exVue exHeap [OptionCall.data "a" 1, OptionCall.dataS 2]).handed = [] := by
  refine ⟨by decide, by decide, rfl, by decide⟩

/-! ## The data payload handed to the constructor -/

/-- A run without `Data`, `DataS` and failing `MethodsOf` completes and
keeps the data slot and `dataValue`. -/
theorem run_neutral (opts : List OptionCall) : ∀ (s : State),
    (∀ o ∈ opts, o.isData = false ∧ o.isDataS = false ∧ o.badBridge = false) →
    ∃ s1, runCalls s opts = Result.ok s1 ∧ s1.c.Data = s.c.Data ∧
      s1.c.dataValue = s.c.dataValue := by
  induction opts with
  | nil => intro s _; exact ⟨s, rfl, rfl, rfl⟩
  | cons o rest ih =>
    intro s h
    obtain ⟨h1, h2, h3⟩ := h o (List.mem_cons_self _ _)
    obtain ⟨s2, hs, hd, hv⟩ := step_neutral o s h1 h2 h3
    obtain ⟨s1, hr, hd1, hv1⟩ := ih s2 (fun o1 ho1 => h o1 (List.mem_cons_of_mem _ ho1))
    refine ⟨s1, ?_, by rw [hd1, hd], by rw [hv1, hv]⟩
    rw [runCalls_cons, hs]; exact hr

/-- A run with exactly one `DataS(p)`, no `Data` and no failing `MethodsOf`,
started on an undefined data slot, completes with the struct payload `p`. -/
theorem run_typed (opts : List OptionCall) : ∀ (s : State) (p : Ptr),
    (∀ o ∈ opts, o.isData = false ∧ o.badBridge = false) →
    dataSOf opts = [p] → s.c.Data = JsData.undefined →
    ∃ s1, runCalls s opts = Result.ok s1 ∧ s1.c.Data = JsData.struct p [] ∧
      s1.c.dataValue = some p := by
  induction opts with
  | nil => intro s p _ h; simp [dataSOf] at h
  | cons o rest ih =>
    intro s p h hds hd
    have hrest : ∀ o1 ∈ rest, o1.isData = false ∧ o1.badBridge = false :=
      fun o1 ho1 => h o1 (List.mem_cons_of_mem _ ho1)
    obtain ⟨h1, h3⟩ := h o (List.mem_cons_self _ _)
    cases o with
    | dataS q =>
      simp only [dataSOf, List.cons.injEq] at hds
      obtain ⟨hq, hnil⟩ := hds
      subst hq
      have hno := (dataSOf_nil_iff rest).mp hnil
      obtain ⟨s1, hr, hd1, hv1⟩ := run_neutral rest
        { s with c := { s.c with Data := JsData.struct q [], dataValue := some q } }
        (fun o1 ho1 => ⟨(hrest o1 ho1).1, hno o1 ho1, (hrest o1 ho1).2⟩)
      refine ⟨s1, ?_, hd1, hv1⟩
      rw [runCalls_cons]
      simp only [OptionCall.toOption, DataS_undefined q s hd]
      exact hr
    | data n v => simp [OptionCall.isData] at h1
    | el sel =>
      obtain ⟨s2, hs, hd2, _⟩ := step_neutral (OptionCall.el sel) s rfl rfl rfl
      obtain ⟨s1, hr, hd1, hv1⟩ := ih s2 p hrest (by simpa [dataSOf] using hds) (by rw [hd2, hd])
      exact ⟨s1, by rw [runCalls_cons, hs]; exact hr, hd1, hv1⟩
    | methodsOf t =>
      obtain ⟨s2, hs, hd2, _⟩ := step_neutral (OptionCall.methodsOf t) s rfl rfl h3
      obtain ⟨s1, hr, hd1, hv1⟩ := ih s2 p hrest (by simpa [dataSOf] using hds) (by rw [hd2, hd])
      exact ⟨s1, by rw [runCalls_cons, hs]; exact hr, hd1, hv1⟩

/-- A run that completes holds no `MethodsOf` on a non-pointer. -/
theorem run_ok_bridge (opts : List OptionCall) : ∀ (s s1 : State),
    runCalls s opts = Result.ok s1 → ∀ o ∈ opts, o.badBridge = false := by
  induction opts with
  | nil => intro s s1 _ o ho; simp at ho
  | cons o1 rest ih =>
    intro s s1 hok o ho
    rw [runCalls_cons] at hok
    cases hstep : o1.toOption s with
    | panic msg s2 => rw [hstep] at hok; exact Result.noConfusion hok
    | ok s2 =>
      rw [hstep] at hok
      rcases List.mem_cons.mp ho with h | h
      · subst h
        cases o with
        | methodsOf t =>
          by_cases hk : t.Kind = Kind.Ptr
          · simp [OptionCall.badBridge, hk]
          · simp only [OptionCall.toOption, MethodsOf_nonptr t s hk] at hstep
            exact Result.noConfusion hstep
        | el sel => rfl
        | data n v => rfl
        | dataS p => rfl
      · exact ih s2 s1 hok o h

/-- C7 as amended: let the options of `NewVM` be applied without a panic
and let them not hold both `Data` and `DataS` calls. The record is handed to
the foreign constructor once. If `DataS(p)` is among the options (it is then
the only `DataS` call, and the payload handed on is `p` with no property
written on it) and the struct at `p` has a field `VM` of type `*VM`, `NewVM`
returns the VM wrapping the handle the constructor produced, that field
holds this VM, it is the one field assignment made, every other field of the
struct and every other struct is as before. If no `DataS` call was made, or
the struct has no field `VM`, `NewVM` returns that VM, the heap is as before
and no field is assigned. -/
theorem newVM_back_reference (vueNew : Config → JsObject) (heap : Heap)
    (opts : List OptionCall) (s : State) (hrun : runCalls State.init opts = Result.ok s)
    (hsep : dataSOf opts = [] ∨ ∀ o ∈ opts, o.isData = false) :
    (buildOf vueNew heap opts).handed = [s.c] ∧
    (∀ p f, OptionCall.dataS p ∈ opts → FieldByName (heap p) "VM" = some f →
      f.type = vmType →
        dataSOf opts = [p] ∧ s.c.Data = JsData.struct p [] ∧
        (buildOf vueNew heap opts).result = Except.ok { Object := vueNew s.c } ∧
        FieldByName ((buildOf vueNew heap opts).heap p) "VM"
          = some { f with value := FieldVal.vm { Object := vueNew s.c } } ∧
        (buildOf vueNew heap opts).writes = [(p, "VM")] ∧
        (∀ n, n ≠ "VM" →
          FieldByName ((buildOf vueNew heap opts).heap p) n = FieldByName (heap p) n) ∧
        ((buildOf vueNew heap opts).heap p).map Field.name = (heap p).map Field.name ∧
        (∀ q, q ≠ p → (buildOf vueNew heap opts).heap q = heap q)) ∧
    ((dataSOf opts = [] ∨
        ∃ p, OptionCall.dataS p ∈ opts ∧ FieldByName (heap p) "VM" = none) →
      (buildOf vueNew heap opts).result = Except.ok { Object := vueNew s.c } ∧
      (buildOf vueNew heap opts).heap = heap ∧
      (buildOf vueNew heap opts).writes = []) := by
  have hrun1 : Config.Option State.init (opts.map OptionCall.toOption) = Result.ok s := hrun
  have hdv := run_dataValue opts State.init s hrun
  have hval : ∀ p, OptionCall.dataS p ∈ opts → dataSOf opts = [p] ∧ s.c.dataValue = some p := by
    intro p hp
    have hmem := (mem_dataSOf opts p).mpr hp
    rcases hdv with ⟨h1, _⟩ | ⟨q, h1, h2⟩
    · rw [h1] at hmem; simp at hmem
    · rw [h1] at hmem
      have : p = q := by simpa using hmem
      subst this
      exact ⟨h1, h2⟩
  refine ⟨NewVM_handed vueNew heap _ s hrun1, ?_, ?_⟩
  · intro p f hp hf ht
    obtain ⟨h1, h2⟩ := hval p hp
    have hnodata : ∀ o ∈ opts, o.isData = false := by
      rcases hsep with h | h
      · rw [h1] at h; simp at h
      · exact h
    have hpayload : s.c.Data = JsData.struct p [] := by
      obtain ⟨s1, hr, hd, _⟩ := run_typed opts State.init p
        (fun o ho => ⟨hnodata o ho, run_ok_bridge opts State.init s hrun o ho⟩) h1 rfl
      rw [hrun, Result.ok.injEq] at hr
      rw [hr]; exact hd
    have hb : buildOf vueNew heap opts = _ :=
      NewVM_of_ok_field vueNew heap _ s p f hrun1 h2 hf (by rw [ht]; rfl)
    refine ⟨h1, hpayload, by rw [hb], ?_, by rw [hb], ?_, ?_, ?_⟩
    · rw [hb]; simp only [Function.update_same]
      exact FieldByName_setField_same _ _ _ f hf
    · intro n hn
      rw [hb]; simp only [Function.update_same]
      exact FieldByName_setField_other _ _ _ _ hn
    · rw [hb]; simp only [Function.update_same]
      exact names_setField _ _ _
    · intro q hq
      rw [hb]; simp only [Function.update_noteq hq]
  · rintro (h | ⟨p, hp, hf⟩)
    · have hnone : s.c.dataValue = none := by
        rcases hdv with ⟨_, h2⟩ | ⟨q, h1, _⟩
        · rw [h2]; rfl
        · rw [h] at h1; simp at h1
      have hb : buildOf vueNew heap opts = _ := NewVM_of_ok_none vueNew heap _ s hrun1 hnone
      exact ⟨by rw [hb], by rw [hb], by rw [hb]⟩
    · obtain ⟨_, h2⟩ := hval p hp
      have hb : buildOf vueNew heap opts = _ :=
        NewVM_of_ok_nofield vueNew heap _ s p hrun1 h2 hf
      exact ⟨by rw [hb], by rw [hb], by rw [hb]⟩

/-- C7 as amended, at the options `El("#app")`, `DataS(1)`, `MethodsOf` on a
pointer, on a heap where struct 1 has the fields `N` and `VM`. -/
theorem newVM_back_reference_witness :
    (buildOf exVue exHeap
        [OptionCall.el "#app", OptionCall.dataS 1, OptionCall.methodsOf exPtrType]).result
      = Except.ok { Object := 42 } ∧
    FieldByName ((buildOf exVue exHeap
        [OptionCall.el "#app", OptionCall.dataS 1, OptionCall.methodsOf exPtrType]).heap 1) "VM"
      = some { name := "VM", type := vmType, value := FieldVal.vm { Object := 42 } } ∧
    (buildOf exVue exHeap
        [OptionCall.el "#app", OptionCall.dataS 1, OptionCall.methodsOf exPtrType]).writes
      = [(1, "VM")] ∧
    FieldByName ((buildOf exVue exHeap
        [OptionCall.el "#app", OptionCall.dataS 1, OptionCall.methodsOf exPtrType]).heap 1) "N"
      = FieldByName (exHeap 1) "N" :=
  have h := (newVM_back_reference exVue exHeap
    [OptionCall.el "#app", OptionCall.dataS 1, OptionCall.methodsOf exPtrType] _ rfl
    (Or.inr (by decide))).2.1 1
    { name := "VM", type := vmType, value := FieldVal.zero } (by decide) (by decide) rfl
  ⟨h.2.2.1, h.2.2.2.1, h.2.2.2.2.1, h.2.2.2.2.2.1 "N" (by decide)⟩

end Hvue
